import Mathlib

/-!
Verification of the kurobako benchmark-problem harness (`deepobs.rs`,
`sigopt.rs`) against its natural-language specification.

The Rust code is shallowly embedded: `u64`/`usize` become `Nat`, `i64`
becomes `Int`, `f64` values that are only stored, compared and printed
become `Rat`, fallible functions return `Except`, and the two statements
that can panic (`Vec` indexing and `Option::unwrap`) are made explicit
through an `Outcome.panicked` constructor.  File-system contents and the
external training process are passed in as explicit data.
-/

/-- The fidelity-selection loop of `DeepobsEvaluator::evaluate`
(deepobs.rs lines 219-221):

    while self.epochs.len() > 1 && self.epochs.last() < Some(&budget.amount) {
        self.epochs.pop();
    }

`epochs` is a `Vec<u64>`, modelled as a `List Nat` in the same order, so
`Vec::last` is `List.getLastD` and `Vec::pop` is `List.dropLast`.  Each
iteration removes one element, so running the loop body at most
`ep.length` times is exact; the fuel argument makes the recursion
structural. -/
def shrinkAux (B : Nat) : Nat → List Nat → List Nat
  | 0, ep => ep
  | Nat.succ n, ep =>
    if 1 < ep.length ∧ ep.getLastD 0 < B then shrinkAux B n ep.dropLast else ep

/-- The fidelity-selection loop with its exact fuel. -/
def shrink (B : Nat) (ep : List Nat) : List Nat := shrinkAux B ep.length ep

/-- Source: `DeepobsProblem::create_evaluator` (deepobs.rs line 181) initialises the
evaluator's live schedule as the recipe's epochs reversed:
`self.recipe.epochs.clone().into_iter().rev().collect()`. -/
def initialEpochs (recipeEpochs : List Nat) : List Nat := recipeEpochs.reverse

/-- The checkpoint selected by `DeepobsEvaluator::evaluate` (deepobs.rs
line 223, `*self.epochs.last().unwrap()`) on an evaluator freshly created
from recipe schedule `S`, given requested budget `B`.  (`getLastD 0`
stands for the `unwrap`; the schedule of a fresh evaluator is non-empty
whenever `S` is.) -/
def selectedFresh (S : List Nat) (B : Nat) : Nat :=
  (shrink B (initialEpochs S)).getLastD 0

/-- Minimum of a list of naturals (0 for the empty list; only used on
non-empty lists). -/
def listMin : List Nat → Nat
  | [] => 0
  | x :: xs => xs.foldl min x

/-- Maximum of a list of naturals (0 for the empty list; only used on
non-empty lists). -/
def listMax : List Nat → Nat
  | [] => 0
  | x :: xs => xs.foldl max x

/-- Modelled from the spec: the selection rule exactly as claim C1 words
it — "the checkpoint selected equals `min{s ∈ S : s ≥ B}`, and if no
schedule entry is `≥ B` it falls back to the overall minimum schedule
entry `min(S)`".  This definition follows the claim's words and is
compared against the code's `selectedFresh`. -/
def claimSelect (S : List Nat) (B : Nat) : Nat :=
  match S.filter (fun s => B ≤ s) with
  | [] => listMin S
  | s :: rest => rest.foldl min s

/-- Modelled from the spec, amended: same rule but with the fallback that
the code actually implements — when no schedule entry is `≥ B`, the
selected checkpoint is the overall **maximum** schedule entry. -/
def amendedSelect (S : List Nat) (B : Nat) : Nat :=
  match S.filter (fun s => B ≤ s) with
  | [] => listMax S
  | s :: rest => rest.foldl min s

/-- Front-view form of the selection loop: on the un-reversed (ascending)
recipe list, the loop drops leading entries `< B` while more than one
entry remains.  Proof device used to reason about `shrink` applied to a
reversed list. -/
def dropSmall (B : Nat) : List Nat → List Nat
  | [] => []
  | [x] => [x]
  | x :: y :: rest => if x < B then dropSmall B (y :: rest) else x :: y :: rest

lemma shrinkAux_reverse (B : Nat) :
    ∀ (n : Nat) (S : List Nat), S.length ≤ n →
      shrinkAux B n S.reverse = (dropSmall B S).reverse := by
  intro n
  induction n with
  | zero =>
    intro S hS
    have : S = [] := List.length_eq_zero.mp (Nat.le_zero.mp hS)
    subst this; rfl
  | succ n ih =>
    intro S hS
    match S with
    | [] => simp [shrinkAux, dropSmall]
    | [x] => simp [shrinkAux, dropSmall]
    | x :: y :: rest =>
      have hrev : (x :: y :: rest).reverse = (y :: rest).reverse ++ [x] := by
        simp
      rw [hrev]
      by_cases hx : x < B
      · have hguard : 1 < ((y :: rest).reverse ++ [x]).length ∧
            ((y :: rest).reverse ++ [x]).getLastD 0 < B := by
          constructor
          · simp
          · simpa [List.getLastD_concat] using hx
        rw [shrinkAux, if_pos hguard, List.dropLast_concat]
        have hlen : (y :: rest).length ≤ n := by
          simp at hS ⊢; omega
        rw [ih (y :: rest) hlen]
        simp [dropSmall, hx]
      · have hguard : ¬(1 < ((y :: rest).reverse ++ [x]).length ∧
            ((y :: rest).reverse ++ [x]).getLastD 0 < B) := by
          rw [List.getLastD_concat]
          intro h
          exact hx h.2
        rw [shrinkAux, if_neg hguard]
        simp [dropSmall, hx]

lemma shrink_reverse (B : Nat) (S : List Nat) :
    shrink B S.reverse = (dropSmall B S).reverse := by
  unfold shrink
  rw [List.length_reverse]
  exact shrinkAux_reverse B S.length S le_rfl

/-- A lower bound on every element is preserved by `foldl min`. -/
lemma foldl_min_eq_self {x : Nat} :
    ∀ (l : List Nat), (∀ y ∈ l, x ≤ y) → l.foldl min x = x := by
  intro l
  induction l with
  | nil => intro _; rfl
  | cons y ys ih =>
    intro h
    have hxy : min x y = x := Nat.min_eq_left (h y (by simp))
    simp only [List.foldl_cons, hxy]
    exact ih fun z hz => h z (by simp [hz])

lemma foldl_max_cons_of_le {x y : Nat} (h : x ≤ y) (l : List Nat) :
    List.foldl max x (y :: l) = List.foldl max y l := by
  simp [List.foldl_cons, Nat.max_eq_right h]

/-- On a `≤`-sorted non-empty list, the front-view loop selects the head
of the `≥ B` filter when that filter is non-empty, and the last (largest)
entry otherwise. -/
lemma dropSmall_headD (B : Nat) :
    ∀ (S : List Nat), S ≠ [] → List.Sorted (· ≤ ·) S →
      (dropSmall B S).headD 0 = amendedSelect S B := by
  intro S
  induction S with
  | nil => intro h; exact absurd rfl h
  | cons x xs ih =>
    intro _ hsorted
    have hx_le : ∀ y ∈ xs, x ≤ y := fun y hy =>
      (List.sorted_cons.mp hsorted).1 y hy
    have hxs_sorted : List.Sorted (· ≤ ·) xs :=
      (List.sorted_cons.mp hsorted).2
    match xs, hx_le, hxs_sorted, ih with
    | [], _, _, _ =>
      by_cases hB : B ≤ x <;> simp [dropSmall, amendedSelect, listMax, hB]
    | y :: rest, hx_le, hxs_sorted, ih =>
      by_cases hx : x < B
      · have hBx : ¬ B ≤ x := by omega
        rw [show dropSmall B (x :: y :: rest) = dropSmall B (y :: rest) by
              simp [dropSmall, hx]]
        rw [ih (by simp) hxs_sorted]
        unfold amendedSelect
        rw [show (x :: y :: rest).filter (fun s => B ≤ s)
              = (y :: rest).filter (fun s => B ≤ s) by
              simp [List.filter_cons, hBx]]
        cases hfil : (y :: rest).filter (fun s => B ≤ s) with
        | cons s rest' => rfl
        | nil =>
          show listMax (y :: rest) = listMax (x :: y :: rest)
          simp only [listMax]
          exact (foldl_max_cons_of_le (hx_le y (by simp)) rest).symm
      · have hBx : B ≤ x := by omega
        rw [show dropSmall B (x :: y :: rest) = x :: y :: rest by
              simp [dropSmall, hx]]
        unfold amendedSelect
        rw [show (x :: y :: rest).filter (fun s => B ≤ s)
              = x :: (y :: rest).filter (fun s => B ≤ s) by
              simp [List.filter_cons, hBx]]
        show x = List.foldl min x ((y :: rest).filter (fun s => B ≤ s))
        rw [foldl_min_eq_self]
        intro z hz
        exact hx_le z (List.mem_of_mem_filter hz)

lemma getLastD_reverse (l : List Nat) (d : Nat) :
    l.reverse.getLastD d = l.headD d := by
  cases l with
  | nil => rfl
  | cons x xs =>
    rw [List.getLastD_eq_getLast?, List.getLast?_reverse]
    rfl

lemma selectedFresh_eq_dropSmall (S : List Nat) (B : Nat) :
    selectedFresh S B = (dropSmall B S).headD 0 := by
  unfold selectedFresh initialEpochs
  rw [shrink_reverse, getLastD_reverse]

/-- C1 (counterexample): on the ascending schedule `S = [10, 50, 100]`
with requested budget `B = 200` (no schedule entry is `≥ B`), the
selection loop of `DeepobsEvaluator::evaluate` keeps popping the smallest
remaining entry until one entry is left, selecting `100` — the overall
**maximum** — whereas the claim's stated fallback `min(S)` is `10`. -/
theorem C1_counterexample :
    selectedFresh [10, 50, 100] 200 = 100 ∧ claimSelect [10, 50, 100] 200 = 10 := by
  decide

/-- C1 (amended): for every evaluator freshly created from an ascending,
non-empty schedule `S` and every requested budget `B`, the checkpoint
selected by `DeepobsEvaluator::evaluate` equals `min{s ∈ S : s ≥ B}`;
if no schedule entry is `≥ B` it falls back to the overall **maximum**
schedule entry `max(S)` (not the minimum as originally claimed). -/
theorem C1_fidelity_selection_amended (S : List Nat) (B : Nat)
    (hne : S ≠ []) (hasc : List.Sorted (· ≤ ·) S) :
    selectedFresh S B = amendedSelect S B := by
  rw [selectedFresh_eq_dropSmall]
  exact dropSmall_headD B S hne hasc

/-- C1 witness: the amended selection rule evaluated on the spec's own
example `S = [10, 50, 100]`, `B = 30`, where the selected checkpoint is
`50`. -/
theorem C1_witness :
    selectedFresh [10, 50, 100] 30 = amendedSelect [10, 50, 100] 30 :=
  C1_fidelity_selection_amended [10, 50, 100] 30 (by decide) (by decide)

lemma dropLast_prefixOf (l : List Nat) : l.dropLast <+: l := by
  rw [List.dropLast_eq_take]
  exact List.take_prefix _ _

/-- The selection loop only ever pops entries: its result is a prefix of
the vector it started from. -/
lemma shrinkAux_prefixOf (B : Nat) :
    ∀ (n : Nat) (ep : List Nat), shrinkAux B n ep <+: ep := by
  intro n
  induction n with
  | zero => intro ep; exact List.prefix_refl ep
  | succ n ih =>
    intro ep
    rw [shrinkAux]
    by_cases h : 1 < ep.length ∧ ep.getLastD 0 < B
    · rw [if_pos h]
      exact (ih ep.dropLast).trans (dropLast_prefixOf ep)
    · rw [if_neg h]

lemma shrink_prefixOf (B : Nat) (ep : List Nat) : shrink B ep <+: ep :=
  shrinkAux_prefixOf B ep.length ep

/-- With enough fuel the loop runs to completion: its exit condition
holds of the result. -/
lemma shrinkAux_exit (B : Nat) :
    ∀ (n : Nat) (ep : List Nat), ep.length ≤ n →
      ¬(1 < (shrinkAux B n ep).length ∧ (shrinkAux B n ep).getLastD 0 < B) := by
  intro n
  induction n with
  | zero =>
    intro ep hlen
    have : ep = [] := List.length_eq_zero.mp (Nat.le_zero.mp hlen)
    subst this
    intro h
    simp [shrinkAux] at h
  | succ n ih =>
    intro ep hlen
    rw [shrinkAux]
    by_cases h : 1 < ep.length ∧ ep.getLastD 0 < B
    · rw [if_pos h]
      apply ih
      rw [List.length_dropLast]
      omega
    · rw [if_neg h]
      exact h

lemma shrink_exit (B : Nat) (ep : List Nat) :
    ¬(1 < (shrink B ep).length ∧ (shrink B ep).getLastD 0 < B) :=
  shrinkAux_exit B ep.length ep le_rfl

/-- A vector already satisfying the exit condition is left unchanged. -/
lemma shrink_stable (B : Nat) (ep : List Nat)
    (h : ¬(1 < ep.length ∧ ep.getLastD 0 < B)) : shrink B ep = ep := by
  unfold shrink
  cases hl : ep.length with
  | zero => rfl
  | succ n =>
    rw [shrinkAux, hl, if_neg]
    rw [← hl]
    exact h

/-- Running the loop again with a smaller (or equal) budget changes
nothing: the schedule is already settled. -/
lemma shrink_shrink (B B' : Nat) (hle : B' ≤ B) (ep : List Nat) :
    shrink B' (shrink B ep) = shrink B ep := by
  apply shrink_stable
  intro hcontra
  exact shrink_exit B ep ⟨hcontra.1, lt_of_lt_of_le hcontra.2 hle⟩

lemma shrinkAux_ne_nil (B : Nat) :
    ∀ (n : Nat) (ep : List Nat), ep ≠ [] → shrinkAux B n ep ≠ [] := by
  intro n
  induction n with
  | zero => intro ep h; exact h
  | succ n ih =>
    intro ep h
    rw [shrinkAux]
    by_cases hg : 1 < ep.length ∧ ep.getLastD 0 < B
    · rw [if_pos hg]
      apply ih
      intro hd
      have := List.length_dropLast ep
      rw [hd] at this
      simp at this
      omega
    · rw [if_neg hg]
      exact h

lemma shrink_ne_nil (B : Nat) (ep : List Nat) (h : ep ≠ []) :
    shrink B ep ≠ [] :=
  shrinkAux_ne_nil B ep.length ep h

/-- The sequence of checkpoints selected by repeated
`DeepobsEvaluator::evaluate` calls: each call first runs the selection
loop on the evaluator's live schedule, selects the last remaining entry,
and leaves the shrunk schedule in the evaluator for the next call. -/
def evalTrace (ep : List Nat) : List Nat → List Nat
  | [] => []
  | B :: Bs => (shrink B ep).getLastD 0 :: evalTrace (shrink B ep) Bs

/-- The sequence of live schedules after each call. -/
def stateTrace (ep : List Nat) : List Nat → List (List Nat)
  | [] => []
  | B :: Bs => shrink B ep :: stateTrace (shrink B ep) Bs

/-- C5: monotonic schedule shrinkage.  For every evaluator state and
every sequence of repeated `evaluate` calls with non-increasing budget
amounts, the sequence of selected checkpoint costs is non-increasing, and
the live schedule only ever shrinks: each call's resulting schedule is a
prefix of the previous one (popped entries never reappear, so an entry
discarded by one call is never available to any later call). -/
theorem C5_monotonic_shrinkage (ep : List Nat) (Bs : List Nat)
    (hne : ep ≠ []) (hmono : Bs.Chain' (fun a b => b ≤ a)) :
    (evalTrace ep Bs).Chain' (fun a b => b ≤ a) ∧
      (ep :: stateTrace ep Bs).Chain' (fun s t => t <+: s) := by
  induction Bs generalizing ep with
  | nil => exact ⟨List.chain'_nil, List.chain'_singleton ep⟩
  | cons B Bs ih =>
    have hchain := List.chain'_cons'.mp hmono
    obtain ⟨hhead, htail⟩ := hchain
    have hne1 : shrink B ep ≠ [] := shrink_ne_nil B ep hne
    obtain ⟨htr, hst⟩ := ih (shrink B ep) hne1 htail
    constructor
    · show ((shrink B ep).getLastD 0 :: evalTrace (shrink B ep) Bs).Chain' _
      apply List.chain'_cons'.mpr
      refine ⟨?_, htr⟩
      intro z hz
      cases Bs with
      | nil => simp [evalTrace] at hz
      | cons B2 Bs2 =>
        have hB2 : B2 ≤ B := hhead B2 rfl
        have hz' : (shrink B2 (shrink B ep)).getLast?.getD 0 = z := by
          simpa [evalTrace] using hz
        rw [← hz', shrink_shrink B B2 hB2, List.getLastD_eq_getLast?]
    · show (ep :: shrink B ep :: stateTrace (shrink B ep) Bs).Chain' _
      exact List.chain'_cons.mpr ⟨shrink_prefixOf B ep, hst⟩

/-- C5 witness: a concrete evaluator state `[100, 50, 10]` (descending,
as held internally) with non-increasing budgets `[60, 40, 40]`. -/
theorem C5_witness :
    (evalTrace [100, 50, 10] [60, 40, 40]).Chain' (fun a b => b ≤ a) ∧
      (([100, 50, 10] : List Nat) ::
          stateTrace [100, 50, 10] [60, 40, 40]).Chain' (fun s t => t <+: s) :=
  C5_monotonic_shrinkage [100, 50, 10] [60, 40, 40] (by decide)
    (by norm_num [List.chain'_cons])

/-- Error kinds surfaced by the embedded fallible functions, mirroring
the `trackable` error kinds used in the source (`ErrorKind::InvalidInput`,
`ErrorKind::Other`, `ErrorKind::Bug`, i/o and serde errors wrapped by
`track_any_err!`).  `noResultFound` carries the searched directory path,
as the `track_panic!` message in `get_score` does. -/
inductive Err
  | invalidInput
  | other
  | bug
  | ioErr
  | parseErr
  | emptyAccuracies
  | noResultFound (path : List (List Char))
deriving DecidableEq

/-- Source: `path.extension().and_then(|e| e.to_str()) == Some("json")`
(deepobs.rs line 199) for a final path component `name`:
`Path::extension` is `Some("json")` exactly when the file name ends in
`".json"` and has a non-empty stem (a bare `".json"` has no extension).
File names are modelled as `List Char`. -/
def hasJsonExt (name : List Char) : Bool :=
  ['.', 'j', 's', 'o', 'n'].isSuffixOf name && name ≠ ['.', 'j', 's', 'o', 'n']

/- A directory tree as scanned by `DeepobsEvaluator::get_score`: each
entry is a file (with the `Option` holding the parsed
`TestResult.test_accuracies` when the file parses as a `TestResult`, and
`none` when `serde_json::from_reader` would fail) or a subdirectory with
an ordered entry list (`fs::read_dir` order).  `FsList` is a list of
entries; the mutual formulation keeps the recursion in `getScore`
structural. -/
mutual
/-- A single directory entry: see the comment on this `mutual` group. -/
inductive Fs
  | file (name : List Char) (data : Option (List Rat))
  | dir (name : List Char) (entries : FsList)
/-- An ordered list of directory entries. -/
inductive FsList
  | nil
  | cons (e : Fs) (rest : FsList)
end

/-- Source: `DeepobsEvaluator::get_score` (deepobs.rs lines 193-215), called with
the path `p` of the directory whose entries are `l`:

    for entry in fs::read_dir(&dir) {
        if path.extension() == Some("json") { parse; return last accuracy }
        else if path.is_dir() { return self.get_score(path); }
    }
    track_panic!(InvalidInput, "No result JSON file is found: {:?}", dir)

A directory whose own name has a `.json` extension takes the first
branch, where `fs::File::open` on a directory fails (`ioErr`); a parse
failure is `parseErr`; `track_assert_some!(result.test_accuracies.last())`
is `emptyAccuracies`.  Note the `else if` branch **returns** the
recursion into the first subdirectory encountered, never resuming the
sibling scan. -/
def getScore (p : List (List Char)) : FsList → Except Err Rat
  | .nil => .error (.noResultFound p)
  | .cons (Fs.file name data) rest =>
    if hasJsonExt name then
      match data with
      | none => .error .parseErr
      | some accs =>
        match accs.getLast? with
        | none => .error .emptyAccuracies
        | some a => .ok a
    else getScore p rest
  | .cons (Fs.dir name sub) _rest =>
    if hasJsonExt name then .error .ioErr
    else getScore (p ++ [name]) sub

/-- No entry anywhere in the tree has a recognized (`.json`) name. -/
def jsonFree : FsList → Bool
  | .nil => true
  | .cons (Fs.file name _) rest => !hasJsonExt name && jsonFree rest
  | .cons (Fs.dir name sub) rest =>
    !hasJsonExt name && jsonFree sub && jsonFree rest

/-- The committed traversal of `get_score` reaches a parsed result file
with accuracy list `accs`: at each level, every entry before the one it
acts on is a file without the recognized extension (any `.json`-named
entry or any directory terminates the sibling scan). -/
inductive JsonAt : FsList → List Rat → Prop
  | found {name : List Char} {rest : FsList} {accs : List Rat} :
      hasJsonExt name = true →
      JsonAt (.cons (.file name (some accs)) rest) accs
  | skipFile {name : List Char} {data : Option (List Rat)} {rest : FsList}
      {accs : List Rat} :
      hasJsonExt name = false →
      JsonAt rest accs →
      JsonAt (.cons (.file name data) rest) accs
  | enterDir {name : List Char} {sub rest : FsList} {accs : List Rat} :
      hasJsonExt name = false →
      JsonAt sub accs →
      JsonAt (.cons (.dir name sub) rest) accs

lemma getScore_of_jsonAt {l : FsList} {accs : List Rat}
    (h : JsonAt l accs) :
    ∀ p, getScore p l =
      match accs.getLast? with
      | none => .error .emptyAccuracies
      | some a => .ok a := by
  induction h with
  | found hname =>
    intro p
    simp only [getScore, hname, if_true]
  | skipFile hname _ ih =>
    intro p
    simp only [getScore, hname, Bool.false_eq_true, if_false]
    exact ih p
  | enterDir hname _ ih =>
    intro p
    simp only [getScore, hname, Bool.false_eq_true, if_false]
    exact ih _

lemma getScore_of_jsonFree :
    (l : FsList) → ∀ p, jsonFree l = true →
      ∃ q, p <+: q ∧ getScore p l = .error (.noResultFound q)
  | .nil => fun p _ => ⟨p, List.prefix_refl p, rfl⟩
  | .cons (.file name data) rest => fun p h => by
    rw [jsonFree] at h
    simp only [Bool.and_eq_true, Bool.not_eq_true'] at h
    obtain ⟨q, hq, hscore⟩ := getScore_of_jsonFree rest p h.2
    exact ⟨q, hq, by
      simp only [getScore, h.1, Bool.false_eq_true, if_false]
      exact hscore⟩
  | .cons (.dir name sub) rest => fun p h => by
    rw [jsonFree] at h
    simp only [Bool.and_eq_true, Bool.not_eq_true'] at h
    obtain ⟨q, hq, hscore⟩ := getScore_of_jsonFree sub (p ++ [name]) h.1.2
    refine ⟨q, ?_, ?_⟩
    · exact (List.prefix_append p [name]).trans hq
    · simp only [getScore, h.1.1, Bool.false_eq_true, if_false]
      exact hscore

/-- C2 (counterexample): a directory tree with a nested (empty)
subdirectory `a` listed before the only recognized JSON result file
`r.json` (accuracies `[0.87]`, non-empty).  `get_score` commits to the
first directory it encounters and returns its recursion, so the call
fails with "no result found" on the subdirectory instead of returning
`0.87` as the claim states. -/
theorem C2_counterexample :
    getScore []
        (.cons (Fs.dir ['a'] .nil)
          (.cons (Fs.file ['r', '.', 'j', 's', 'o', 'n']
            (some [(87 : Rat)/100])) .nil))
      = .error (.noResultFound [['a']]) := rfl

/-- C2 (amended): result extraction, restricted to trees where the
recognized JSON file lies on the traversal's committed path (`JsonAt`:
at each level the entries preceding the acted-on entry are files without
the recognized extension; the first `.json`-named entry or directory
terminates the sibling scan).  Then `get_score` returns the **last**
element of the non-empty `test_accuracies` array; an empty accuracies
array is an extraction error; and if no recognized file name exists
anywhere in the tree, the call fails with a "no result found" error
carrying the path of the innermost directory the committed descent
reached — an extension of the searched root path (the root itself only
when the scan never entered a subdirectory). -/
theorem C2_result_extraction_amended (p : List (List Char)) (l : FsList) :
    (∀ (accs : List Rat) (a : Rat),
        JsonAt l accs → accs.getLast? = some a → getScore p l = .ok a) ∧
      (∀ accs : List Rat,
        JsonAt l accs → accs.getLast? = none →
          getScore p l = .error .emptyAccuracies) ∧
      (jsonFree l = true →
        ∃ q, p <+: q ∧ getScore p l = .error (.noResultFound q)) := by
  refine ⟨?_, ?_, ?_⟩
  · intro accs a hat hlast
    rw [getScore_of_jsonAt hat p, hlast]
  · intro accs hat hlast
    rw [getScore_of_jsonAt hat p, hlast]
  · exact getScore_of_jsonFree l p

/-- C2 witness: the spec's example tree — a non-JSON file, then a nested
subdirectory holding the single JSON result file with accuracies
`[0.1, 0.4, 0.87]` — from which `get_score` extracts the last element
`0.87`. -/
theorem C2_witness :
    getScore []
        (.cons (Fs.file ['l', 'o', 'g'] none)
          (.cons (Fs.dir ['s', 'u', 'b']
            (.cons (Fs.file ['r', '.', 'j', 's', 'o', 'n']
              (some [(1 : Rat)/10, (2 : Rat)/5, (87 : Rat)/100])) .nil)) .nil))
      = .ok ((87 : Rat)/100) :=
  (C2_result_extraction_amended []
      (.cons (Fs.file ['l', 'o', 'g'] none)
        (.cons (Fs.dir ['s', 'u', 'b']
          (.cons (Fs.file ['r', '.', 'j', 's', 'o', 'n']
            (some [(1 : Rat)/10, (2 : Rat)/5, (87 : Rat)/100])) .nil)) .nil))).1
    [(1 : Rat)/10, (2 : Rat)/5, (87 : Rat)/100] ((87 : Rat)/100)
    (JsonAt.skipFile rfl (JsonAt.enterDir rfl (JsonAt.found rfl))) rfl

/-- Source: `ParamValue` (kurobako_core), as described by the spec's data model:
`Continuous(f64)`, `Discrete(i64)`, `Categorical(index)`,
`Conditional(Option<Box<ParamValue>>)`.  `f64` payloads are modelled as
`Rat`. -/
inductive PValue
  | continuous (v : Rat)
  | discrete (v : Int)
  | categorical (idx : Nat)
  | conditional (v : Option PValue)

/-- The payload of an emitted command-line flag: evaluate's value match
converts a continuous or discrete payload with `to_string`; the payload
is carried here unchanged, standing for its natural textual form. -/
inductive EmitVal
  | cont (v : Rat)
  | disc (v : Int)
deriving DecidableEq

/-- Source: `name.splitn(2, '.').nth(0)`: the part of `name` before the first
dot (the whole name when there is no dot). -/
def beforeDot (name : List Char) : List Char := name.takeWhile (· ≠ '.')

/-- Source: `name.splitn(2, '.').nth(1)`: the part of `name` after the first dot
(later dots are kept). -/
def afterDot (name : List Char) : List Char :=
  (name.dropWhile (· ≠ '.')).drop 1

/-- The value match of `DeepobsEvaluator::evaluate` (deepobs.rs lines
247-260): `Continuous` and `Discrete` payloads are converted, a
`Conditional(Some(v))` is unwrapped once and its inner `Continuous` or
`Discrete` payload converted, and everything else (`Categorical`,
`Conditional(None)`, deeper nesting) hits a `continue`. -/
def emitValue : PValue → Option EmitVal
  | .continuous v => some (.cont v)
  | .discrete v => some (.disc v)
  | .conditional (some w) =>
    match w with
    | .continuous v => some (.cont v)
    | .discrete v => some (.disc v)
    | _ => none
  | _ => none

/-- The per-configuration flag emission loop of
`DeepobsEvaluator::evaluate` (deepobs.rs lines 235-267): the declared
domain names (skipping the first, the optimizer selector) are zipped
with the supplied values (also skipping the first); a pair whose name is
namespaced under a different optimizer (`name.contains('.') &&
Some(optimizer) != name.splitn(2, '.').nth(0)`) is skipped; otherwise
the value match decides emission and the flag key is the name with its
namespace prefix stripped. -/
def emitArgs (optimizer : List Char) (domainNames : List (List Char))
    (params : List PValue) : List (List Char × EmitVal) :=
  ((domainNames.drop 1).zip (params.drop 1)).filterMap fun nv =>
    if nv.1.contains '.' = true ∧ optimizer ≠ beforeDot nv.1 then none
    else
      match emitValue nv.2 with
      | none => none
      | some v =>
        some (if nv.1.contains '.' = true then afterDot nv.1 else nv.1, v)

/-- The flag key: the parameter name with its namespace prefix stripped
when it has one. -/
def stripNamespace (name : List Char) : List Char :=
  if name.contains '.' = true then afterDot name else name

/-- Modelled from the spec, amended: the per-parameter emission rule as
claim C3 words it, with the correction the counterexample forces —
namespace-mismatched parameters are skipped entirely; otherwise a
`Continuous` or `Discrete` value, directly or inside a present
`Conditional`, is emitted under the prefix-stripped field name, while
`Categorical` values, deeper-nested `Conditional` values and absent
`Conditional` values are skipped. -/
def specEmitOne (mode : List Char) (nv : List Char × PValue) :
    Option (List Char × EmitVal) :=
  if nv.1.contains '.' = true ∧ mode ≠ beforeDot nv.1 then none
  else
    match nv.2 with
    | .continuous v => some (stripNamespace nv.1, .cont v)
    | .discrete v => some (stripNamespace nv.1, .disc v)
    | .conditional (some (.continuous v)) => some (stripNamespace nv.1, .cont v)
    | .conditional (some (.discrete v)) => some (stripNamespace nv.1, .disc v)
    | _ => none

lemma emitOne_eq (mode : List Char) (nv : List Char × PValue) :
    (if nv.1.contains '.' = true ∧ mode ≠ beforeDot nv.1 then none
     else
       match emitValue nv.2 with
       | none => none
       | some v =>
         some (if nv.1.contains '.' = true then afterDot nv.1 else nv.1, v))
      = specEmitOne mode nv := by
  obtain ⟨name, v⟩ := nv
  by_cases h : name.contains '.' = true ∧ mode ≠ beforeDot name
  · obtain ⟨h1, h2⟩ := h
    have h1' : '.' ∈ name := by simpa using h1
    simp [specEmitOne, h1', h2]
  · cases v with
    | continuous v => simp [specEmitOne, emitValue, stripNamespace, h]
    | discrete v => simp [specEmitOne, emitValue, stripNamespace, h]
    | categorical i => simp [specEmitOne, emitValue, stripNamespace, h]
    | conditional o =>
      cases o with
      | none => simp [specEmitOne, emitValue, stripNamespace, h]
      | some w =>
        cases w <;> simp [specEmitOne, emitValue, stripNamespace, h]

/-- C3 (counterexample): with mode `"adam"` selected, the declared
parameter `"adam.foo"` is in the active namespace (its prefix equals the
mode) and its value is a present `Categorical 1` — yet nothing is
emitted, because evaluate's value match silently drops `Categorical`
values instead of emitting their textual form as the claim states. -/
theorem C3_counterexample :
    beforeDot ['a', 'd', 'a', 'm', '.', 'f', 'o', 'o'] = ['a', 'd', 'a', 'm'] ∧
      emitArgs ['a', 'd', 'a', 'm']
          [['o', 'p', 't', 'i', 'm', 'i', 'z', 'e', 'r'],
            ['a', 'd', 'a', 'm', '.', 'f', 'o', 'o']]
          [PValue.categorical 2, PValue.categorical 1] = [] :=
  ⟨rfl, rfl⟩

/-- C3 (amended): for every declared parameter after the first, a
namespace-mismatched name is skipped entirely; otherwise the parameter
is emitted as `--<field> <value>` with the namespace prefix stripped
exactly when its value is `Continuous` or `Discrete`, directly or inside
a present `Conditional`; `Categorical` values, deeper-nested
`Conditional` values and absent `Conditional` values are skipped. -/
theorem C3_parameter_emission_amended (mode : List Char)
    (domainNames : List (List Char)) (params : List PValue) :
    emitArgs mode domainNames params
      = ((domainNames.drop 1).zip (params.drop 1)).filterMap
          (specEmitOne mode) := by
  unfold emitArgs
  generalize (domainNames.drop 1).zip (params.drop 1) = l
  induction l with
  | nil => rfl
  | cons nv rest ih =>
    rw [List.filterMap_cons, List.filterMap_cons, emitOne_eq, ih]

/-- Source: `DeepobsProblemRecipe::create_problem` (deepobs.rs lines 135-147):

    track_assert!(!self.epochs.is_empty(), ErrorKind::InvalidInput);
    track_assert_ne!(*self.epochs.last().unwrap(), 0, ErrorKind::InvalidInput);
    let script = track!(EmbeddedScript::new(include_str!(...)))?;
    Ok(DeepobsProblem { ... })

These two assertions are the only validation performed on the schedule.
`EmbeddedScript::new` over the compiled-in script text is modelled as
succeeding; on success the problem holds the recipe's epochs unchanged,
which is what the returned value carries here. -/
def createProblem (epochs : List Nat) : Except Err (List Nat) :=
  if epochs.isEmpty then .error .invalidInput
  else if epochs.getLastD 0 = 0 then .error .invalidInput
  else .ok epochs

/-- The list is declared ascending (each entry at most the next), the
ordering property claim C4 says `create_problem` validates. -/
def isAscending : List Nat → Bool
  | [] => true
  | [_] => true
  | x :: y :: rest => x ≤ y && isAscending (y :: rest)

/-- C4 (counterexample): the epochs list `[100, 10]` is not ascending,
yet `create_problem` accepts it — the construction-time checks are only
non-emptiness and a non-zero final entry; ascending order is never
validated. -/
theorem C4_counterexample :
    isAscending [100, 10] = false ∧
      createProblem [100, 10] = .ok [100, 10] :=
  ⟨rfl, rfl⟩

/-- C4 (amended): `DeepobsProblemRecipe::create_problem` rejects (returns
an error for) exactly the epochs lists that are empty or whose final
entry is zero, and succeeds in constructing a Problem otherwise — in
particular a non-ascending list is accepted; these checks happen at
construction time, never deferred to evaluation. -/
theorem C4_schedule_validation_amended (epochs : List Nat) :
    createProblem epochs = .ok epochs ↔
      epochs ≠ [] ∧ epochs.getLastD 0 ≠ 0 := by
  constructor
  · intro h
    unfold createProblem at h
    by_cases h1 : epochs.isEmpty = true
    · rw [if_pos h1] at h
      exact absurd h (by simp)
    · refine ⟨fun he => h1 (by simp [he]), ?_⟩
      by_cases h2 : epochs.getLastD 0 = 0
      · rw [if_neg h1, if_pos h2] at h
        exact absurd h (by simp)
      · exact h2
  · rintro ⟨h1, h2⟩
    unfold createProblem
    rw [if_neg (by simp [h1]), if_neg h2]

/-- Source: `yamakan::budget::Budget`, as the spec's data model describes it:
`{amount: u64 (requested), consumption: u64 (observed, set by the
evaluator)}`. -/
structure Budget where
  amount : Nat
  consumption : Nat
deriving DecidableEq

/-- The `OPTIMIZERS` constant (deepobs.rs lines 21-31): eight optimizer
mode names (`ftrl` is commented out in the source). -/
def OPTIMIZERS : List (List Char) :=
  ["adadelta", "adagrad", "adam", "gradient-descent", "momentum",
    "proximal-adagrad", "proximal-gradient-descent", "rms-prop"].map
    String.data

/-- Modelled from the spec: `ParamValue::as_categorical` (kurobako_core,
not under src/) — the spec treats the first parameter as "the active
categorical mode selector.. its chosen option name is resolved via the
domain's choice list", so the accessor yields the choice index of a
`Categorical` value and `None` for every other kind. -/
def asCategorical : PValue → Option Nat
  | .categorical i => some i
  | _ => none

/-- The environment of one `evaluate` call: whether `tempdir()` succeeds,
the result of `command.status()` (`error` = spawn/wait failure, `ok b` =
exit status with success flag `b`), and the contents of the scratch
output directory after the external process ran. -/
structure World where
  tempdirOk : Bool
  statusE : Except Unit Bool
  tree : FsList

/-- How one `evaluate` call ends: an unguarded panic (`params[0]`,
`OPTIMIZERS[i]` or `Option::unwrap` out of bounds), a returned error, or
the returned values. -/
inductive Outcome
  | panicked
  | failed (e : Err)
  | ok (values : List Rat)
deriving DecidableEq

/-- The observable result of one `evaluate` call: its outcome plus the
final state of the caller's `&mut Budget` and of the evaluator's
`epochs` vector (both mutated in place in the source, so they persist on
error paths). -/
structure EvalResult where
  out : Outcome
  budget : Budget
  epochs : List Nat
deriving DecidableEq

/-- Source: `DeepobsEvaluator::evaluate` (deepobs.rs lines 218-279), in source
order:

 1. the fidelity-selection loop (lines 219-221) — `shrink`;
 2. `*self.epochs.last().unwrap()` (line 223) — panics on an empty
    vector;
 3. `tempdir()?` (line 224) — i/o error when the OS call fails;
 4. `params[0]` (line 225) — panics on an empty slice;
    `track_assert_some!(params[0].as_categorical())` — `invalidInput`
    for a non-categorical first value; `OPTIMIZERS[idx]` — panics when
    the index is out of bounds (eight optimizers are declared);
 5. command construction (lines 228-270) affects only the spawned
    process, which enters this model through `World`; the
    per-configuration flag list it builds is embedded separately as
    `emitArgs`;
 6. `track_any_err!(command.status())?` (line 272) — i/o error;
    `track_assert!(status.success(), ErrorKind::Other)` (line 273);
 7. `budget.consumption = epochs` (line 275) — the only write to the
    budget, after a successful exit status and before result
    extraction;
 8. `self.get_score(output_dir)` (line 277) and
    `FiniteF64::new(score)` (line 278) — the score is a parsed JSON
    number, finite in this `Rat` model. -/
def DeepobsEvaluator.evaluate (ep : List Nat) (params : List PValue)
    (b : Budget) (w : World) : EvalResult :=
  let ep1 := shrink b.amount ep
  match ep1.getLast? with
  | none => ⟨.panicked, b, ep1⟩
  | some epochs =>
    if w.tempdirOk then
      match params.head? with
      | none => ⟨.panicked, b, ep1⟩
      | some p0 =>
        match asCategorical p0 with
        | none => ⟨.failed .invalidInput, b, ep1⟩
        | some idx =>
          if idx < OPTIMIZERS.length then
            match w.statusE with
            | .error _ => ⟨.failed .ioErr, b, ep1⟩
            | .ok false => ⟨.failed .other, b, ep1⟩
            | .ok true =>
              let b1 : Budget := ⟨b.amount, epochs⟩
              match getScore [] w.tree with
              | .error e => ⟨.failed e, b1, ep1⟩
              | .ok score => ⟨.ok [score], b1, ep1⟩
          else ⟨.panicked, b, ep1⟩
    else ⟨.failed .ioErr, b, ep1⟩

lemma exists_getLast? {l : List Nat} (h : l ≠ []) :
    ∃ x, l.getLast? = some x :=
  ⟨l.getLast h, List.getLast?_eq_getLast l h⟩

lemma getLastD_of_getLast? {l : List Nat} {x : Nat}
    (h : l.getLast? = some x) : l.getLastD 0 = x := by
  rw [List.getLastD_eq_getLast?, h]
  rfl

/-- C8: frame property of `DeepobsEvaluator::evaluate` on the caller's
budget.  `budget.amount` is never modified on any path, and
`budget.consumption` is either left unchanged or — only when the
external process exited successfully — set to the checkpoint cost
selected by fidelity selection for this call.  In particular every panic
path and every error path that aborts before a successful exit leaves
the budget entirely unchanged. -/
theorem C8_budget_frame (ep : List Nat) (params : List PValue)
    (b : Budget) (w : World) :
    (DeepobsEvaluator.evaluate ep params b w).budget.amount = b.amount ∧
      ((DeepobsEvaluator.evaluate ep params b w).budget.consumption
          = b.consumption ∨
        (w.statusE = .ok true ∧
          (DeepobsEvaluator.evaluate ep params b w).budget.consumption
            = (shrink b.amount ep).getLastD 0)) := by
  cases heq : (shrink b.amount ep).getLast? with
  | none => simp [DeepobsEvaluator.evaluate, heq]
  | some epochs =>
    by_cases htd : w.tempdirOk
    · cases hh : params.head? with
      | none => simp [DeepobsEvaluator.evaluate, heq, htd, hh]
      | some p0 =>
        cases hc : asCategorical p0 with
        | none => simp [DeepobsEvaluator.evaluate, heq, htd, hh, hc]
        | some idx =>
          by_cases hlt : idx < OPTIMIZERS.length
          · cases hst : w.statusE with
            | error e =>
              simp [DeepobsEvaluator.evaluate, heq, htd, hh, hc, hst, hlt]
            | ok flag =>
              cases flag with
              | false =>
                simp [DeepobsEvaluator.evaluate, heq, htd, hh, hc, hst, hlt]
              | true =>
                cases hg : getScore [] w.tree with
                | error e =>
                  simp [DeepobsEvaluator.evaluate, heq, htd, hh, hc, hst,
                    hlt, hg, getLastD_of_getLast? heq]
                | ok score =>
                  simp [DeepobsEvaluator.evaluate, heq, htd, hh, hc, hst,
                    hlt, hg, getLastD_of_getLast? heq]
          · simp [DeepobsEvaluator.evaluate, heq, htd, hh, hc, hlt]
    · simp [DeepobsEvaluator.evaluate, heq, htd]

/-- C6: budget accounting.  On every `evaluate` call that reaches the
external process and sees it complete successfully (`status.success()`),
`budget.consumption` is set to exactly the checkpoint cost selected by
fidelity selection for that call — the last entry of the shrunk
schedule — regardless of what the result extraction afterwards does. -/
theorem C6_budget_consumption (ep : List Nat) (params : List PValue)
    (b : Budget) (w : World) (i : Nat)
    (hep : ep ≠ []) (hhead : params.head? = some (.categorical i))
    (hi : i < OPTIMIZERS.length) (htd : w.tempdirOk = true)
    (hst : w.statusE = .ok true) :
    (DeepobsEvaluator.evaluate ep params b w).budget.consumption
      = (shrink b.amount ep).getLastD 0 := by
  obtain ⟨x, hx⟩ := exists_getLast? (shrink_ne_nil b.amount ep hep)
  cases hg : getScore [] w.tree with
  | error e =>
    simp [DeepobsEvaluator.evaluate, hx, htd, hhead, asCategorical, hi,
      hst, hg, getLastD_of_getLast? hx]
  | ok score =>
    simp [DeepobsEvaluator.evaluate, hx, htd, hhead, asCategorical, hi,
      hst, hg, getLastD_of_getLast? hx]

/-- C6 witness: schedule `[100, 50, 10]` (descending, as held
internally), budget amount `60`: fidelity selection pops `10` and `50`
and selects `100`, and after a successful exit the consumption reads
exactly `100`. -/
theorem C6_witness :
    (DeepobsEvaluator.evaluate [100, 50, 10] [PValue.categorical 2]
        ⟨60, 0⟩
        ⟨true, .ok true,
          .cons (Fs.file ['r', '.', 'j', 's', 'o', 'n']
            (some [(1 : Rat)/2])) .nil⟩).budget.consumption = 100 := by
  rw [C6_budget_consumption [100, 50, 10] [PValue.categorical 2] ⟨60, 0⟩
    ⟨true, .ok true,
      .cons (Fs.file ['r', '.', 'j', 's', 'o', 'n']
        (some [(1 : Rat)/2])) .nil⟩ 2
    (by decide) rfl (by decide) rfl rfl]
  rfl

/-- C9: implicit safety precondition of `DeepobsEvaluator::evaluate`
(deepobs.rs lines 225-226).  `params[0]` and `OPTIMIZERS[idx]` carry no
bounds guards: with a live (non-empty) schedule and a working temp
directory, an empty `params` slice panics, a first value
`Categorical i` with `i ≥ 8` (eight optimizers are declared) panics,
and a first value `Categorical i` with `i < 8` never panics — both
indexings are in bounds and any failure is a returned error instead. -/
theorem C9_unguarded_indexing (ep : List Nat) (params : List PValue)
    (b : Budget) (w : World)
    (hep : ep ≠ []) (htd : w.tempdirOk = true) :
    OPTIMIZERS.length = 8 ∧
      (params = [] →
        (DeepobsEvaluator.evaluate ep params b w).out = .panicked) ∧
      (∀ i, params.head? = some (.categorical i) → OPTIMIZERS.length ≤ i →
        (DeepobsEvaluator.evaluate ep params b w).out = .panicked) ∧
      (∀ i, params.head? = some (.categorical i) → i < OPTIMIZERS.length →
        (DeepobsEvaluator.evaluate ep params b w).out ≠ .panicked) := by
  obtain ⟨x, hx⟩ := exists_getLast? (shrink_ne_nil b.amount ep hep)
  refine ⟨rfl, ?_, ?_, ?_⟩
  · intro hp
    subst hp
    simp [DeepobsEvaluator.evaluate, hx, htd]
  · intro i hh hge
    simp [DeepobsEvaluator.evaluate, hx, htd, hh, asCategorical,
      Nat.not_lt.mpr hge]
  · intro i hh hlt
    cases hst : w.statusE with
    | error e =>
      simp [DeepobsEvaluator.evaluate, hx, htd, hh, asCategorical, hlt, hst]
    | ok flag =>
      cases flag with
      | false =>
        simp [DeepobsEvaluator.evaluate, hx, htd, hh, asCategorical, hlt, hst]
      | true =>
        cases hg : getScore [] w.tree with
        | error e =>
          simp [DeepobsEvaluator.evaluate, hx, htd, hh, asCategorical,
            hlt, hst, hg]
        | ok score =>
          simp [DeepobsEvaluator.evaluate, hx, htd, hh, asCategorical,
            hlt, hst, hg]

/-- C9 witness: with the one-entry schedule `[100]`, an empty parameter
slice panics, `Categorical 9` (out of the eight optimizers) panics, and
`Categorical 2` does not panic even though the process then exits with
a failure status. -/
theorem C9_witness :
    (DeepobsEvaluator.evaluate [100] [] ⟨60, 0⟩
        ⟨true, .ok false, .nil⟩).out = .panicked ∧
      (DeepobsEvaluator.evaluate [100] [PValue.categorical 9] ⟨60, 0⟩
        ⟨true, .ok false, .nil⟩).out = .panicked ∧
      (DeepobsEvaluator.evaluate [100] [PValue.categorical 2] ⟨60, 0⟩
        ⟨true, .ok false, .nil⟩).out ≠ .panicked := by
  refine ⟨?_, ?_, ?_⟩
  · exact (C9_unguarded_indexing [100] [] ⟨60, 0⟩ ⟨true, .ok false, .nil⟩
      (by decide) rfl).2.1 rfl
  · exact (C9_unguarded_indexing [100] [PValue.categorical 9] ⟨60, 0⟩
      ⟨true, .ok false, .nil⟩ (by decide) rfl).2.2.1 9 rfl (by decide)
  · exact (C9_unguarded_indexing [100] [PValue.categorical 2] ⟨60, 0⟩
      ⟨true, .ok false, .nil⟩ (by decide) rfl).2.2.2 2 rfl (by decide)

/-- Source: `SigoptEvaluator` (sigopt.rs lines 144-149): the optional input
resolution `res` and the boxed test function together with the trial's
parameters.  The concrete closed-form test functions are outside the
core (spec §1), so the function is carried abstractly as a map from the
parameter vector to the objective value; `f64` arithmetic is modelled
over `Rat`. -/
structure SigoptEvaluator where
  res : Option Rat
  testFunction : List Rat → Rat
  params : List Rat

/-- Source: `SigoptEvaluator::evaluate` (sigopt.rs lines 150-161):

    track_assert_eq!(next_step, 1, ErrorKind::Bug);
    let mut value = self.test_function.evaluate(self.params.get());
    if let Some(res) = self.res {
        value = (value * res).floor() / res;
    }
    Ok((1, Values::new(vec![value])))
-/
def SigoptEvaluator.evaluate (ev : SigoptEvaluator) (next_step : Nat) :
    Except Err (Nat × List Rat) :=
  if next_step ≠ 1 then .error .bug
  else
    let value := ev.testFunction ev.params
    let value :=
      match ev.res with
      | some res => (⌊value * res⌋ : Rat) / res
      | none => value
    .ok (1, [value])

/-- C10: implicit single-step contract of `SigoptEvaluator::evaluate`.
Every `next_step` other than `1` is rejected with a `Bug` error, and
`next_step = 1` returns consumed step `1` together with the
test-function value, quantized to `floor(value * res) / res` exactly
when a resolution `res` is configured. -/
theorem C10_single_step (ev : SigoptEvaluator) (n : Nat) :
    (n ≠ 1 → ev.evaluate n = .error .bug) ∧
      ev.evaluate 1 = .ok (1,
        [match ev.res with
          | some res => (⌊ev.testFunction ev.params * res⌋ : Rat) / res
          | none => ev.testFunction ev.params]) := by
  constructor
  · intro h
    simp [SigoptEvaluator.evaluate, h]
  · simp [SigoptEvaluator.evaluate]

/-- C10 witness: an evaluator with resolution `2` and constant
test-function value `3/4`: step `5` is rejected with a `Bug` error, and
step `1` yields the quantized value `floor(3/4 * 2) / 2 = 1/2`. -/
theorem C10_witness :
    SigoptEvaluator.evaluate ⟨some 2, fun _ => (3 : Rat)/4, []⟩ 5
        = .error .bug ∧
      SigoptEvaluator.evaluate ⟨some 2, fun _ => (3 : Rat)/4, []⟩ 1
        = .ok (1, [(1 : Rat)/2]) := by
  refine ⟨(C10_single_step ⟨some 2, fun _ => (3 : Rat)/4, []⟩ 5).1
      (by decide), ?_⟩
  rw [(C10_single_step ⟨some 2, fun _ => (3 : Rat)/4, []⟩ 1).2]
  norm_num

/-- Modelled from the spec: the canonical invocation signature of the
shared problem cache (spec §3, §4.5) — "an ordered list of strings
(canonicalized invocation arguments)".  The cache implementation itself
is not under src/, so this whole component follows the spec's words. -/
abbrev Sig := List (List Char)

/-- Modelled from the spec: the process-wide registry state (spec §3
`CacheEntry`, §4.5).  `procs` holds the live external processes —
process id, signature and strong reference count (a process dies when
its last strong reference is released); `table` is the weak registry
mapping a signature to the pid it last spawned (a dangling entry is
treated as absence, never swept); `nextId` generates fresh process
ids. -/
structure CacheState where
  procs : List (Nat × Sig × Nat)
  table : List (Sig × Nat)
  nextId : Nat

/-- Association lookup in the weak registry (insertion shadows older
entries, like a map insert). -/
def lookupSig (t : List (Sig × Nat)) (sig : Sig) : Option Nat :=
  match t with
  | [] => none
  | e :: rest => if e.1 = sig then some e.2 else lookupSig rest sig

/-- The weak reference for `pid` still resolves: the process is alive
(held by at least one strong reference). -/
def alive (procs : List (Nat × Sig × Nat)) (pid : Nat) : Bool :=
  procs.any fun e => e.1 == pid

/-- Add one strong reference to process `pid`. -/
def bumpRef (pid : Nat) (e : Nat × Sig × Nat) : Nat × Sig × Nat :=
  if e.1 = pid then (e.1, e.2.1, e.2.2 + 1) else e

/-- Drop one strong reference from process `pid`. -/
def decRef (pid : Nat) (e : Nat × Sig × Nat) : Nat × Sig × Nat :=
  if e.1 = pid then (e.1, e.2.1, e.2.2 - 1) else e

/-- Modelled from the spec: spawn a fresh external-evaluator process
bound to `sig`, store a weak reference keyed by the signature, and hand
the caller a strong reference (spec §4.5). -/
def spawn (s : CacheState) (sig : Sig) : Nat × CacheState :=
  (s.nextId,
    { procs := (s.nextId, sig, 1) :: s.procs,
      table := (sig, s.nextId) :: s.table,
      nextId := s.nextId + 1 })

/-- Modelled from the spec: `get_or_create(signature)` (spec §4.5) —
under the global registry lock, look the signature up; a live handle
yields a new strong reference to the same process; a missing or dangling
(dead) entry spawns a fresh process.  Concurrent callers serialize on
the lock, so consecutive applications model concurrent requests. -/
def getOrCreate (s : CacheState) (sig : Sig) : Nat × CacheState :=
  match lookupSig s.table sig with
  | some pid =>
    if alive s.procs pid then
      (pid, { s with procs := s.procs.map (bumpRef pid) })
    else spawn s sig
  | none => spawn s sig

/-- Modelled from the spec: releasing a strong reference; a process
whose count reaches zero exits and is removed from the live set, while
its registry entry is left dangling (spec §3: "a dangling weak reference
is treated as absence (lazy, not actively swept)"). -/
def release (s : CacheState) (pid : Nat) : CacheState :=
  { s with
    procs := (s.procs.map (decRef pid)).filter fun e => e.2.2 != 0 }

/-- Well-formedness of a registry state: live pids are distinct and
below the id generator, registry pids are below the generator, live
reference counts are positive, and every live process is registered
under its signature (its signature's registry entry resolves to it). -/
structure WF (s : CacheState) : Prop where
  pidsNodup : (s.procs.map fun e => e.1).Nodup
  pidBound : ∀ e ∈ s.procs, e.1 < s.nextId
  tableBound : ∀ e ∈ s.table, e.2 < s.nextId
  refPos : ∀ e ∈ s.procs, 1 ≤ e.2.2
  registered : ∀ e ∈ s.procs, lookupSig s.table e.2.1 = some e.1

/-- At most one live external process per signature. -/
def AtMostOne (s : CacheState) : Prop :=
  ∀ sig : Sig,
    (s.procs.filter fun e => e.2.1 == sig).length ≤ 1

lemma bumpRef_fst (pid : Nat) (e : Nat × Sig × Nat) :
    (bumpRef pid e).1 = e.1 := by
  unfold bumpRef
  split <;> rfl

lemma bumpRef_sig (pid : Nat) (e : Nat × Sig × Nat) :
    (bumpRef pid e).2.1 = e.2.1 := by
  unfold bumpRef
  split
  · rfl
  · rfl

lemma decRef_fst (pid : Nat) (e : Nat × Sig × Nat) :
    (decRef pid e).1 = e.1 := by
  unfold decRef
  split <;> rfl

lemma decRef_sig (pid : Nat) (e : Nat × Sig × Nat) :
    (decRef pid e).2.1 = e.2.1 := by
  unfold decRef
  split
  · rfl
  · rfl

lemma alive_iff {procs : List (Nat × Sig × Nat)} {pid : Nat} :
    alive procs pid = true ↔ ∃ e ∈ procs, e.1 = pid := by
  simp [alive, List.any_eq_true]

lemma map_bumpRef_fst (procs : List (Nat × Sig × Nat)) (pid : Nat) :
    ((procs.map (bumpRef pid)).map fun e => e.1)
      = procs.map fun e => e.1 := by
  induction procs with
  | nil => rfl
  | cons e rest ih => simp [bumpRef_fst, ih]

lemma map_decRef_fst (procs : List (Nat × Sig × Nat)) (pid : Nat) :
    ((procs.map (decRef pid)).map fun e => e.1)
      = procs.map fun e => e.1 := by
  induction procs with
  | nil => rfl
  | cons e rest ih => simp [decRef_fst, ih]

lemma nodup_const_length_le_one {l : List Nat} {c : Nat}
    (hn : l.Nodup) (hc : ∀ x ∈ l, x = c) : l.length ≤ 1 := by
  match l, hn, hc with
  | [], _, _ => simp
  | [x], _, _ => simp
  | x :: y :: rest, hn, hc =>
    exfalso
    have hx := hc x (by simp)
    have hy := hc y (by simp)
    have hne : x ≠ y := by
      have := List.nodup_cons.mp hn
      intro hxy
      exact this.1 (by simp [hxy])
    exact hne (hx.trans hy.symm)

lemma atMostOne_of_wf {s : CacheState} (hwf : WF s) : AtMostOne s := by
  intro sig
  have hmem : ∀ e ∈ s.procs.filter (fun e => e.2.1 == sig),
      e ∈ s.procs ∧ e.2.1 = sig := by
    intro e he
    have := List.mem_filter.mp he
    exact ⟨this.1, by simpa using this.2⟩
  cases hlook : lookupSig s.table sig with
  | none =>
    have hnil : s.procs.filter (fun e => e.2.1 == sig) = [] := by
      apply List.eq_nil_iff_forall_not_mem.mpr
      intro e he
      obtain ⟨hp, hsig⟩ := hmem e he
      have hr := hwf.registered e hp
      rw [hsig, hlook] at hr
      simp at hr
    simp [hnil]
  | some c =>
    have hsub : List.Sublist (s.procs.filter fun e => e.2.1 == sig)
        s.procs :=
      List.filter_sublist _
    have hn : ((s.procs.filter fun e => e.2.1 == sig).map
        fun e => e.1).Nodup :=
      (hsub.map _).nodup hwf.pidsNodup
    have hc : ∀ x ∈ (s.procs.filter fun e => e.2.1 == sig).map
        (fun e => e.1), x = c := by
      intro x hx
      obtain ⟨e, he, hxe⟩ := List.mem_map.mp hx
      obtain ⟨hp, hsig⟩ := hmem e he
      have hr := hwf.registered e hp
      rw [hsig, hlook] at hr
      rw [← hxe]
      exact (Option.some.inj hr).symm
    have := nodup_const_length_le_one hn hc
    simpa using this

lemma wf_spawn {s : CacheState} {sig : Sig} (hwf : WF s)
    (hdead : ∀ e ∈ s.procs, e.2.1 ≠ sig) : WF (spawn s sig).2 := by
  constructor
  · show (s.nextId :: s.procs.map fun e => e.1).Nodup
    apply List.nodup_cons.mpr
    refine ⟨?_, hwf.pidsNodup⟩
    intro hmem
    obtain ⟨e, he, heq⟩ := List.mem_map.mp hmem
    exact absurd heq (Nat.ne_of_lt (hwf.pidBound e he))
  · intro e he
    rcases List.mem_cons.mp he with h | h
    · rw [h]; exact Nat.lt_succ_self _
    · exact Nat.lt_succ_of_lt (hwf.pidBound e h)
  · intro e he
    rcases List.mem_cons.mp he with h | h
    · rw [h]; exact Nat.lt_succ_self _
    · exact Nat.lt_succ_of_lt (hwf.tableBound e h)
  · intro e he
    rcases List.mem_cons.mp he with h | h
    · rw [h]
    · exact hwf.refPos e h
  · intro e he
    rcases List.mem_cons.mp he with h | h
    · rw [h]
      simp [lookupSig]
    · show lookupSig ((sig, s.nextId) :: s.table) e.2.1 = some e.1
      rw [lookupSig]
      rw [if_neg (fun hc => hdead e h hc.symm)]
      exact hwf.registered e h

lemma deadSig_of_lookup_none {s : CacheState} {sig : Sig} (hwf : WF s)
    (h : lookupSig s.table sig = none) : ∀ e ∈ s.procs, e.2.1 ≠ sig := by
  intro e he hsig
  have hr := hwf.registered e he
  rw [hsig, h] at hr
  simp at hr

lemma deadSig_of_not_alive {s : CacheState} {sig : Sig} {pid : Nat}
    (hwf : WF s) (hl : lookupSig s.table sig = some pid)
    (ha : ¬ alive s.procs pid = true) : ∀ e ∈ s.procs, e.2.1 ≠ sig := by
  intro e he hsig
  have hr := hwf.registered e he
  rw [hsig, hl] at hr
  exact ha (alive_iff.mpr ⟨e, he, (Option.some.inj hr).symm⟩)

lemma wf_getOrCreate {s : CacheState} {sig : Sig} (hwf : WF s) :
    WF (getOrCreate s sig).2 := by
  unfold getOrCreate
  split
  · rename_i pid hlook
    split
    · rename_i ha
      constructor
      · show ((s.procs.map (bumpRef pid)).map fun e => e.1).Nodup
        rw [map_bumpRef_fst]
        exact hwf.pidsNodup
      · intro e he
        obtain ⟨e₀, h0, rfl⟩ := List.mem_map.mp he
        rw [bumpRef_fst]
        exact hwf.pidBound e₀ h0
      · exact hwf.tableBound
      · intro e he
        obtain ⟨e₀, h0, rfl⟩ := List.mem_map.mp he
        unfold bumpRef
        split
        · exact Nat.le_add_left 1 _
        · exact hwf.refPos e₀ h0
      · intro e he
        obtain ⟨e₀, h0, rfl⟩ := List.mem_map.mp he
        rw [bumpRef_sig, bumpRef_fst]
        exact hwf.registered e₀ h0
    · rename_i ha
      exact wf_spawn hwf (deadSig_of_not_alive hwf hlook ha)
  · rename_i hlook
    exact wf_spawn hwf (deadSig_of_lookup_none hwf hlook)

lemma wf_release {s : CacheState} {pid : Nat} (hwf : WF s) :
    WF (release s pid) := by
  have hmem : ∀ e ∈ (s.procs.map (decRef pid)).filter
      (fun e => e.2.2 != 0),
      (∃ e₀ ∈ s.procs, e = decRef pid e₀) ∧ e.2.2 ≠ 0 := by
    intro e he
    have h1 := List.mem_filter.mp he
    obtain ⟨e₀, h0, rfl⟩ := List.mem_map.mp h1.1
    exact ⟨⟨e₀, h0, rfl⟩, by simpa using h1.2⟩
  unfold release
  constructor
  · show ((((s.procs.map (decRef pid)).filter fun e => e.2.2 != 0).map
      fun e => e.1)).Nodup
    have hsub :
        List.Sublist
          (((s.procs.map (decRef pid)).filter fun e => e.2.2 != 0).map
            fun e => e.1)
          ((s.procs.map (decRef pid)).map fun e => e.1) :=
      (List.filter_sublist _).map _
    apply hsub.nodup
    rw [map_decRef_fst]
    exact hwf.pidsNodup
  · intro e he
    obtain ⟨⟨e₀, h0, rfl⟩, _⟩ := hmem e he
    rw [decRef_fst]
    exact hwf.pidBound e₀ h0
  · exact hwf.tableBound
  · intro e he
    obtain ⟨_, hne⟩ := hmem e he
    exact Nat.one_le_iff_ne_zero.mpr hne
  · intro e he
    obtain ⟨⟨e₀, h0, rfl⟩, _⟩ := hmem e he
    rw [decRef_sig, decRef_fst]
    exact hwf.registered e₀ h0

lemma getOrCreate_post {s : CacheState} {sig : Sig} :
    lookupSig (getOrCreate s sig).2.table sig
        = some (getOrCreate s sig).1 ∧
      alive (getOrCreate s sig).2.procs (getOrCreate s sig).1 = true := by
  unfold getOrCreate
  split
  · rename_i pid hlook
    split
    · rename_i ha
      refine ⟨hlook, ?_⟩
      obtain ⟨e, he, hfst⟩ := alive_iff.mp ha
      exact alive_iff.mpr
        ⟨bumpRef pid e, List.mem_map_of_mem _ he,
          by rw [bumpRef_fst]; exact hfst⟩
    · constructor
      · simp [spawn, lookupSig]
      · simp [spawn, alive]
  · constructor
    · simp [spawn, lookupSig]
    · simp [spawn, alive]

lemma getOrCreate_idem {s : CacheState} {sig : Sig} :
    (getOrCreate (getOrCreate s sig).2 sig).1 = (getOrCreate s sig).1 := by
  obtain ⟨hl, ha⟩ := @getOrCreate_post s sig
  conv_lhs => rw [getOrCreate]
  rw [hl]
  simp [ha]

lemma respawn_fresh {s : CacheState} {sig : Sig} (hwf : WF s)
    (hnl : ∀ q, lookupSig s.table sig = some q →
      alive s.procs q = false) :
    (getOrCreate (release (getOrCreate s sig).2 (getOrCreate s sig).1)
        sig).1
      ≠ (getOrCreate s sig).1 := by
  have hfirst : getOrCreate s sig = spawn s sig := by
    unfold getOrCreate
    cases hlook : lookupSig s.table sig with
    | none => rfl
    | some q =>
      have := hnl q hlook
      simp [this]
  rw [hfirst]
  have hrel : release (spawn s sig).2 (spawn s sig).1
      = ⟨(s.procs.map (decRef s.nextId)).filter (fun e => e.2.2 != 0),
          (sig, s.nextId) :: s.table, s.nextId + 1⟩ := by
    simp [release, spawn, decRef, List.filter_cons]
  rw [hrel]
  have hlook2 : lookupSig ((sig, s.nextId) :: s.table) sig
      = some s.nextId := by
    simp [lookupSig]
  have halive2 :
      alive ((s.procs.map (decRef s.nextId)).filter
        fun e => e.2.2 != 0) s.nextId = false := by
    cases hax : alive ((s.procs.map (decRef s.nextId)).filter
        fun e => e.2.2 != 0) s.nextId with
    | false => rfl
    | true =>
      exfalso
      obtain ⟨e, he, hfst⟩ := alive_iff.mp hax
      have h1 := List.mem_filter.mp he
      obtain ⟨e₀, h0, rfl⟩ := List.mem_map.mp h1.1
      rw [decRef_fst] at hfst
      exact absurd hfst (Nat.ne_of_lt (hwf.pidBound e₀ h0))
  show (getOrCreate
      ⟨(s.procs.map (decRef s.nextId)).filter (fun e => e.2.2 != 0),
        (sig, s.nextId) :: s.table, s.nextId + 1⟩ sig).1 ≠ (spawn s sig).1
  unfold getOrCreate
  rw [hlook2]
  simp [halive2, spawn]

/-- C7: cache deduplication (spec §4.5), modelled from the spec since
the cache implementation is not under src/.  For every well-formed
registry state: (a) at most one external process is alive per signature,
and both operations preserve well-formedness, so the invariant holds at
every instant of any operation sequence (concurrent `get_or_create`
callers serialize under the registry's global lock, so consecutive
applications model concurrent requests); (b) two consecutive
`get_or_create` requests with an identical signature return the same
process handle while the first strong reference is still alive; (c)
when no live process backs the signature, `get_or_create` spawns a
fresh process, and after its only strong reference is released a new
request spawns a different (fresh) process — the old weak reference no
longer resolves. -/
theorem C7_cache_dedup (s : CacheState) (sig : Sig) (pid : Nat)
    (hwf : WF s) :
    AtMostOne s ∧
      WF (getOrCreate s sig).2 ∧
      WF (release s pid) ∧
      (getOrCreate (getOrCreate s sig).2 sig).1 = (getOrCreate s sig).1 ∧
      ((∀ q, lookupSig s.table sig = some q → alive s.procs q = false) →
        (getOrCreate (release (getOrCreate s sig).2
            (getOrCreate s sig).1) sig).1
          ≠ (getOrCreate s sig).1) :=
  ⟨atMostOne_of_wf hwf, wf_getOrCreate hwf, wf_release hwf,
    getOrCreate_idem, fun hnl => respawn_fresh hwf hnl⟩

/-- C7 witness: from the empty registry, two requests for the signature
`["x"]` share one process, and after the release of its only strong
reference a third request spawns a different process. -/
theorem C7_witness :
    (getOrCreate (getOrCreate ⟨[], [], 0⟩ [['x']]).2 [['x']]).1
        = (getOrCreate ⟨[], [], 0⟩ [['x']]).1 ∧
      (getOrCreate (release (getOrCreate ⟨[], [], 0⟩ [['x']]).2
          (getOrCreate ⟨[], [], 0⟩ [['x']]).1) [['x']]).1
        ≠ (getOrCreate ⟨[], [], 0⟩ [['x']]).1 := by
  have h := C7_cache_dedup ⟨[], [], 0⟩ [['x']] 0
    ⟨by simp, by simp, by simp, by simp, by simp⟩
  exact ⟨h.2.2.2.1, h.2.2.2.2 (by intro q hq; simp [lookupSig] at hq)⟩
